import Mathlib

/-!
# Verification of the beats catalogue service

A shallow embedding of the TypeScript beats service (Azle/Express canister).
The service stores `Beat` records in a `StableBTreeMap<string, Beat>` and
exposes create / getAll / getById / update / delete / buy / feature /
searchByArtist / searchByTitle operations.

Timestamps are modelled as natural numbers (the host clock reading), record
ids as strings, and the store as an association list kept sorted by key,
mirroring the ordered map.  Every operation is translated directly from the
route handlers in the source file.
-/

/-- The `Beat` entity: `interface Beat` in the source.  `price` is a number
whose arithmetic the service never uses, modelled as `Int`; `createdAt` is a
timestamp, `updatedAt` a timestamp or `null` (`Option`). -/
structure Beat where
  id : String
  title : String
  artist : String
  price : Int
  url : String
  createdAt : Nat
  updatedAt : Option Nat
  sold : Bool
  featured : Bool
deriving DecidableEq

/-- The store: an association list from beat id to `Beat`, kept sorted in
ascending key order, modelling `StableBTreeMap<string, Beat>(0)` (an ordered
map whose `values()` iterates in ascending key order). -/
abbrev Store := List (String × Beat)

/-- Embeds `beatsStorage.get(id)`: lookup of the (unique) entry with the given key. -/
def storeGet (s : Store) (k : String) : Option Beat :=
  match s with
  | [] => none
  | (k', v) :: t => if k = k' then some v else storeGet t k

/-- Strict character order, by code point. -/
def charLt (a b : Char) : Bool :=
  a.toNat < b.toNat

/-- Strict lexicographic order on key characters. -/
def keyLtL : List Char → List Char → Bool
  | [], [] => false
  | [], _ :: _ => true
  | _ :: _, [] => false
  | a :: as, b :: bs => charLt a b || (a == b && keyLtL as bs)

/-- Strict lexicographic order on keys, the ascending order of the B-tree
map. -/
def keyLt (a b : String) : Bool :=
  keyLtL a.data b.data

/-- Embeds `beatsStorage.insert(id, value)`: insert or overwrite, keeping the list
sorted in ascending key order as the B-tree map does. -/
def storeInsert (s : Store) (k : String) (v : Beat) : Store :=
  match s with
  | [] => [(k, v)]
  | (k', v') :: t =>
    if keyLt k k' then (k, v) :: (k', v') :: t
    else if k = k' then (k, v) :: t
    else (k', v') :: storeInsert t k v

/-- The store after `beatsStorage.remove(id)`: the entry with the given key
is gone (a map holds at most one entry per key). -/
def storeErase (s : Store) (k : String) : Store :=
  match s with
  | [] => []
  | (k', v) :: t => if k' = k then storeErase t k else (k', v) :: storeErase t k

/-- Embeds `beatsStorage.values()`: all stored records in store (key) order. -/
def storeValues (s : Store) : List Beat :=
  s.map Prod.snd

/-- The decoded body of a create request: the four caller-supplied fields of
`app.post("/beats")`. -/
structure CreateInput where
  title : String
  artist : String
  price : Int
  url : String
deriving DecidableEq

/-- The decoded body of an update request (`req.body` of
`app.put("/beats/:id")`): an open field set, each field present or absent.
The source merges it with an object spread, so a request may carry any of
the record's fields, including `id`, `createdAt`, `sold`, `featured`,
`updatedAt`. -/
structure BeatPatch where
  id : Option String := none
  title : Option String := none
  artist : Option String := none
  price : Option Int := none
  url : Option String := none
  createdAt : Option Nat := none
  updatedAt : Option (Option Nat) := none
  sold : Option Bool := none
  featured : Option Bool := none
deriving DecidableEq

/-- The object spread `{ ...beat, ...body }`: every field supplied by the
patch overwrites the stored field, absent fields are kept. -/
def mergePatch (b : Beat) (p : BeatPatch) : Beat :=
  { id := p.id.getD b.id
    title := p.title.getD b.title
    artist := p.artist.getD b.artist
    price := p.price.getD b.price
    url := p.url.getD b.url
    createdAt := p.createdAt.getD b.createdAt
    updatedAt := p.updatedAt.getD b.updatedAt
    sold := p.sold.getD b.sold
    featured := p.featured.getD b.featured }

/-- Embeds `app.post("/beats")`: build the record
`{ id: fresh, createdAt: now, ...body, updatedAt: null, sold: false,
featured: false }` and insert it under its id.  Returns the record and the
new store; the operation never fails. -/
def createOp (s : Store) (fresh : String) (now : Nat) (inp : CreateInput) :
    Beat × Store :=
  let beat : Beat :=
    { id := fresh, title := inp.title, artist := inp.artist,
      price := inp.price, url := inp.url, createdAt := now,
      updatedAt := none, sold := false, featured := false }
  (beat, storeInsert s beat.id beat)

/-- Embeds `app.get("/beats")`: all records. -/
def getAllOp (s : Store) : List Beat :=
  storeValues s

/-- Embeds `app.get("/beats/:id")`: pure lookup; `none` is the NotFound (404)
response. -/
def getByIdOp (s : Store) (id : String) : Option Beat :=
  storeGet s id

/-- Embeds `app.put("/beats/:id")`: NotFound (400) when absent; otherwise build
`{ ...beat, ...body, updatedAt: now }` and insert it under `beat.id`, the
id field of the PREVIOUSLY STORED record (the source passes `beat.id`, not
the route parameter, to `insert`).  Returns the response and the new
store. -/
def updateOp (s : Store) (id : String) (p : BeatPatch) (now : Nat) :
    Option Beat × Store :=
  match storeGet s id with
  | none => (none, s)
  | some beat =>
    let updatedBeat : Beat := { mergePatch beat p with updatedAt := some now }
    (some updatedBeat, storeInsert s beat.id updatedBeat)

/-- Embeds `app.delete("/beats/:id")`: `remove` the key and answer with the removed
record, or NotFound (400) when it was absent. -/
def deleteOp (s : Store) (id : String) : Option Beat × Store :=
  (storeGet s id, storeErase s id)

/-- Outcome of a buy request. -/
inductive BuyResult where
  | notFound
  | alreadySold
  | bought (b : Beat)
deriving DecidableEq

/-- Embeds `app.post("/beats/:id/buy")`: NotFound (404) when absent; AlreadySold
(400) when `beat.sold`, leaving the store untouched; otherwise store
`{ ...beat, sold: true, updatedAt: now }` under `beat.id` and return it. -/
def buyOp (s : Store) (id : String) (now : Nat) : BuyResult × Store :=
  match storeGet s id with
  | none => (.notFound, s)
  | some beat =>
    if beat.sold then (.alreadySold, s)
    else
      let b : Beat := { beat with sold := true, updatedAt := some now }
      (.bought b, storeInsert s b.id b)

/-- Embeds `app.post("/beats/:id/feature")`: NotFound (404) when absent; otherwise
store `{ ...beat, featured: true, updatedAt: now }` under `beat.id` and
return it. -/
def featureOp (s : Store) (id : String) (now : Nat) : Option Beat × Store :=
  match storeGet s id with
  | none => (none, s)
  | some beat =>
    let b : Beat := { beat with featured := true, updatedAt := some now }
    (some b, storeInsert s b.id b)

/-- Models `String.prototype.toLowerCase()` for the search routes. -/
def lowerStr (s : String) : String :=
  ⟨s.data.map Char.toLower⟩

/-- Does the second list start with the first? Helper for `hasSub`. -/
def leadEq : List Char → List Char → Bool
  | [], _ => true
  | _ :: _, [] => false
  | a :: as, b :: bs => a == b && leadEq as bs

/-- Models `String.prototype.includes`: does `hay` contain `needle` as a
contiguous run? -/
def hasSub (needle : List Char) : List Char → Bool
  | [] => needle.isEmpty
  | c :: t => leadEq needle (c :: t) || hasSub needle t

/-- Computes `hay.toLowerCase().includes(sub)` where `sub` is already lowercased. -/
def lcIncludes (hay sub : String) : Bool :=
  hasSub sub.data (lowerStr hay).data

/-- Embeds `app.get("/beats/search/artist/:artist")`: lowercase the query, keep the
records whose lowercased artist contains it. -/
def searchByArtistOp (s : Store) (q : String) : List Beat :=
  (storeValues s).filter (fun b => lcIncludes b.artist (lowerStr q))

/-- Embeds `app.get("/beats/search/title/:title")`: same against `title`. -/
def searchByTitleOp (s : Store) (q : String) : List Beat :=
  (storeValues s).filter (fun b => lcIncludes b.title (lowerStr q))

/-- Modelled from the spec: the fresh-id supply behind `uuidv4()`, whose
"id collision probability is treated as zero" and whose ids are "never
reassigned or reused after deletion" — an injective generator indexed by a
counter. -/
def genId (n : Nat) : String :=
  ⟨List.replicate (n + 1) 'b'⟩

/-- Whole-service state: the persistent store plus the fresh-id counter of
the modelled `uuidv4` supply. -/
structure SState where
  store : Store
  nextId : Nat
deriving DecidableEq

/-- One decoded request on the operation surface.  Each mutating request
carries the host-clock reading `now` observed by `getCurrentDate()`. -/
inductive Op where
  | create (inp : CreateInput) (now : Nat)
  | getAll
  | getById (id : String)
  | update (id : String) (p : BeatPatch) (now : Nat)
  | delete (id : String)
  | buy (id : String) (now : Nat)
  | feature (id : String) (now : Nat)
  | searchArtist (q : String)
  | searchTitle (q : String)
deriving DecidableEq

/-- The state transition of one request: the read-only routes leave the
state alone, the mutating ones thread the store through the route handler,
and create additionally consumes one fresh id. -/
def step (st : SState) : Op → SState
  | .create inp now =>
    ⟨(createOp st.store (genId st.nextId) now inp).2, st.nextId + 1⟩
  | .getAll => st
  | .getById _ => st
  | .update id p now => ⟨(updateOp st.store id p now).2, st.nextId⟩
  | .delete id => ⟨(deleteOp st.store id).2, st.nextId⟩
  | .buy id now => ⟨(buyOp st.store id now).2, st.nextId⟩
  | .feature id now => ⟨(featureOp st.store id now).2, st.nextId⟩
  | .searchArtist _ => st
  | .searchTitle _ => st

/-- Run a sequence of requests. -/
def run (st : SState) : List Op → SState
  | [] => st
  | op :: ops => run (step st op) ops

/-- The service state before any request. -/
def initState : SState :=
  ⟨[], 0⟩

/-- Well-formedness of a store: every stored record's `id` field equals the
key it is stored under.  This holds for every state the documented operation
surface can reach; only an update whose field set forges `id` breaks it. -/
def WFStore (s : Store) : Prop :=
  ∀ k v, storeGet s k = some v → v.id = k

/-- Ids the modelled uuid supply has not handed out yet are not keys of the
store. -/
def KeyFresh (st : SState) : Prop :=
  ∀ m, st.nextId ≤ m → storeGet st.store (genId m) = none

/-- The reachable-state invariant: well-formed store and fresh future ids. -/
def SInv (st : SState) : Prop :=
  WFStore st.store ∧ KeyFresh st

/-- A request whose update body (if any) does not forge the `id` field. -/
def OpNoForgeId : Op → Prop
  | .update _ p _ => p.id = none
  | _ => True

/-- A request whose update body (if any) supplies neither `id` nor `sold`. -/
def OpKeepsSold : Op → Prop
  | .update _ p _ => p.id = none ∧ p.sold = none
  | _ => True

/-- A request on the documented (typed) operation surface: an update body
carries only the four mutable fields title/artist/price/url. -/
def OpTyped : Op → Prop
  | .update _ p _ =>
    p.id = none ∧ p.createdAt = none ∧ p.updatedAt = none ∧
    p.sold = none ∧ p.featured = none
  | _ => True

/-- Does this request successfully mutate the record stored under `k` in
store `s`?  Exactly a present-record update, a present-and-unsold buy, or a
present-record feature targeting `k`. -/
def mutatesKey (s : Store) (k : String) : Op → Bool
  | .update id _ _ => id == k && (storeGet s id).isSome
  | .buy id _ =>
    id == k &&
      (match storeGet s id with
       | some b => !b.sold
       | none => false)
  | .feature id _ => id == k && (storeGet s id).isSome
  | _ => false

/-- Was the record stored under `k` successfully mutated at some point of a
request trace started in `st`? -/
def traceMutates (st : SState) (k : String) : List Op → Bool
  | [] => false
  | op :: ops => mutatesKey st.store k op || traceMutates (step st op) k ops

/-- The ids minted by the create requests of a trace, in order. -/
def createdIds (st : SState) : List Op → List String
  | [] => []
  | op :: ops =>
    match op with
    | .create _ _ => genId st.nextId :: createdIds (step st op) ops
    | _ => createdIds (step st op) ops

/-- Specification-side predicate: `q` occurs in `a` as a case-insensitive
substring (contiguous run of the lowercased text). -/
def IsCISub (q a : String) : Prop :=
  ∃ l r, (lowerStr a).data = l ++ (lowerStr q).data ++ r

/-- Did a buy request succeed? -/
def BuyResult.isBought : BuyResult → Bool
  | .bought _ => true
  | _ => false

/-- The record stored under `k`, if any, has never been stamped: its
`updatedAt` is absent. -/
def CleanAt (s : Store) (k : String) : Prop :=
  ∀ b, storeGet s k = some b → b.updatedAt = none

/-- A sample record for concrete instantiations. -/
def sampleBeat : Beat :=
  { id := "x", title := "Night", artist := "Wave", price := 9, url := "u1",
    createdAt := 1, updatedAt := none, sold := false, featured := false }

/-- The sample record already sold. -/
def sampleSold : Beat :=
  { sampleBeat with sold := true }

/-- The sample record already featured. -/
def sampleFeatured : Beat :=
  { sampleBeat with featured := true }

/-- A sample create request body. -/
def sampleIn : CreateInput :=
  { title := "Night", artist := "Wave", price := 9, url := "u1" }

/-! ## Store lemmas -/

/-- Lookup after insert: the inserted key maps to the new value, every other
key is untouched. -/
theorem storeGet_insert (s : Store) (k : String) (v : Beat) (k' : String) :
    storeGet (storeInsert s k v) k' = if k' = k then some v else storeGet s k' := by
  induction s with
  | nil => simp [storeInsert, storeGet]
  | cons e t ih =>
    obtain ⟨ek, ev⟩ := e
    rw [storeInsert]
    by_cases hlt : keyLt k ek = true
    · rw [if_pos hlt]
      by_cases h1 : k' = k <;> simp [storeGet, h1]
    · rw [if_neg hlt]
      by_cases heq : k = ek
      · rw [if_pos heq]
        subst heq
        by_cases h1 : k' = k <;> simp [storeGet, h1]
      · rw [if_neg heq]
        by_cases h2 : k' = ek
        · subst h2
          have h1 : ¬ k' = k := fun h => heq h.symm
          simp [storeGet, h1]
        · simp [storeGet, h2, ih]

/-- Lookup after erase: the erased key is gone, every other key is
untouched. -/
theorem storeGet_erase (s : Store) (k k' : String) :
    storeGet (storeErase s k) k' = if k' = k then none else storeGet s k' := by
  induction s with
  | nil => simp [storeErase, storeGet]
  | cons e t ih =>
    obtain ⟨ek, ev⟩ := e
    by_cases h1 : ek = k <;> by_cases h2 : k' = k <;> by_cases h3 : k' = ek <;>
      simp_all [storeErase, storeGet]

/-- Erasing an absent key leaves the store unchanged. -/
theorem storeErase_absent {s : Store} {k : String} (h : storeGet s k = none) :
    storeErase s k = s := by
  induction s with
  | nil => rfl
  | cons e t ih =>
    obtain ⟨ek, ev⟩ := e
    by_cases hk : k = ek
    · rw [storeGet, if_pos hk] at h
      cases h
    · rw [storeGet, if_neg hk] at h
      have hke : ¬ ek = k := fun he => hk he.symm
      simp [storeErase, hke, ih h]

/-- A successful lookup exhibits a stored entry. -/
theorem storeGet_mem {s : Store} {k : String} {v : Beat}
    (h : storeGet s k = some v) : (k, v) ∈ s := by
  induction s with
  | nil => simp [storeGet] at h
  | cons e t ih =>
    obtain ⟨ek, ev⟩ := e
    rw [storeGet] at h
    split at h
    · next heq =>
      injection h with h2
      subst heq
      subst h2
      exact List.mem_cons_self _ _
    · exact List.mem_cons_of_mem _ (ih h)

/-! ## Invariant lemmas -/

/-- The modelled uuid supply never repeats an id. -/
theorem genId_inj {a b : Nat} (h : genId a = genId b) : a = b := by
  have h2 : a + 1 = b + 1 := by
    have := congrArg (fun s => s.data.length) h
    simpa [genId] using this
  omega

/-- Inserting a record under its own id preserves well-formedness. -/
theorem WFStore.insert {s : Store} (hwf : WFStore s) (v : Beat) :
    WFStore (storeInsert s v.id v) := by
  intro k w hw
  rw [storeGet_insert] at hw
  split at hw
  · next heq =>
    injection hw with hw2
    rw [← hw2, heq]
  · exact hwf k w hw

/-- Erasing a key preserves well-formedness. -/
theorem WFStore.erase {s : Store} (hwf : WFStore s) (k0 : String) :
    WFStore (storeErase s k0) := by
  intro k w hw
  rw [storeGet_erase] at hw
  split at hw
  · cases hw
  · exact hwf k w hw

/-- Every state of the typed surface is preserved: one non-id-forging request
keeps the invariant. -/
theorem inv_step {st : SState} {op : Op} (hinv : SInv st) (hop : OpNoForgeId op) :
    SInv (step st op) := by
  obtain ⟨hwf, hfresh⟩ := hinv
  cases op with
  | create inp now =>
    refine ⟨?_, ?_⟩
    · exact hwf.insert _
    · intro m hm
      rw [step] at hm ⊢
      simp only [createOp] at *
      rw [storeGet_insert]
      split
      · next he =>
        have := genId_inj he
        omega
      · exact hfresh m (by omega)
  | getAll => exact ⟨hwf, hfresh⟩
  | getById _ => exact ⟨hwf, hfresh⟩
  | update id p now =>
    have hpid : p.id = none := hop
    rw [step]
    rw [updateOp]
    cases hb : storeGet st.store id with
    | none => exact ⟨hwf, hfresh⟩
    | some beat =>
      have hbid : beat.id = id := hwf id beat hb
      have hub : ({ mergePatch beat p with updatedAt := some now } : Beat).id = beat.id := by
        simp [mergePatch, hpid]
      refine ⟨?_, ?_⟩
      · have := hwf.insert ({ mergePatch beat p with updatedAt := some now } : Beat)
        rw [hub] at this
        exact this
      · intro m hm
        rw [storeGet_insert]
        split
        · next he =>
          exfalso
          have : storeGet st.store beat.id = none := by
            rw [← he]
            exact hfresh m hm
          rw [hbid, hb] at this
          cases this
        · exact hfresh m hm
  | delete id =>
    refine ⟨hwf.erase id, ?_⟩
    intro m hm
    rw [step, deleteOp]
    rw [storeGet_erase]
    split
    · rfl
    · exact hfresh m hm
  | buy id now =>
    cases hb : storeGet st.store id with
    | none =>
      have hst : step st (Op.buy id now) = st := by
        simp only [step, buyOp, hb]
      rw [hst]
      exact ⟨hwf, hfresh⟩
    | some beat =>
      have hbid : beat.id = id := hwf id beat hb
      by_cases hs : beat.sold
      · have hst : step st (Op.buy id now) = st := by
          simp only [step, buyOp, hb, if_pos hs]
        rw [hst]
        exact ⟨hwf, hfresh⟩
      · have hst : (step st (Op.buy id now)).store =
            storeInsert st.store beat.id
              { beat with sold := true, updatedAt := some now } := by
          simp only [step, buyOp, hb, if_neg hs]
        refine ⟨?_, ?_⟩
        · rw [hst]
          exact hwf.insert { beat with sold := true, updatedAt := some now }
        · intro m hm
          have hm2 : st.nextId ≤ m := hm
          rw [hst, storeGet_insert]
          split
          · next he =>
            exfalso
            have h3 : storeGet st.store beat.id = none := by
              rw [← he]
              exact hfresh m hm2
            rw [hbid, hb] at h3
            cases h3
          · exact hfresh m hm2
  | feature id now =>
    rw [step, featureOp]
    cases hb : storeGet st.store id with
    | none => exact ⟨hwf, hfresh⟩
    | some beat =>
      have hbid : beat.id = id := hwf id beat hb
      refine ⟨hwf.insert _, ?_⟩
      intro m hm
      rw [storeGet_insert]
      split
      · next he =>
        exfalso
        have : storeGet st.store beat.id = none := by
          rw [← he]
          exact hfresh m hm
        rw [hbid, hb] at this
        cases this
      · exact hfresh m hm
  | searchArtist _ => exact ⟨hwf, hfresh⟩
  | searchTitle _ => exact ⟨hwf, hfresh⟩

/-- The empty service state satisfies the invariant. -/
theorem inv_init : SInv initState := by
  constructor
  · intro k v h
    cases h
  · intro m _
    rfl

/-- A request with a sold-and-id-free update body in particular does not
forge ids. -/
theorem keepsSold_noForgeId {op : Op} (h : OpKeepsSold op) : OpNoForgeId op := by
  cases op <;> first
    | exact h.1
    | trivial

/-- A typed-surface request in particular does not forge ids. -/
theorem typed_noForgeId {op : Op} (h : OpTyped op) : OpNoForgeId op := by
  cases op <;> first
    | exact h.1
    | trivial

/-- The fresh-id counter never decreases. -/
theorem nextId_step_le (st : SState) (op : Op) :
    st.nextId ≤ (step st op).nextId := by
  cases op <;> simp [step]

/-- Invariant preservation along a whole trace. -/
theorem inv_run {st : SState} {ops : List Op} (hinv : SInv st)
    (hops : ∀ op ∈ ops, OpNoForgeId op) : SInv (run st ops) := by
  induction ops generalizing st with
  | nil => exact hinv
  | cons op ops ih =>
    exact ih (inv_step hinv (hops op (List.mem_cons_self _ _)))
      (fun o ho => hops o (List.mem_cons_of_mem _ ho))

/-- A currently stored key is never an id the uuid supply will mint later. -/
theorem key_not_future {st : SState} {k : String} {v : Beat}
    (hfresh : KeyFresh st) (h : storeGet st.store k = some v) :
    ∀ m, st.nextId ≤ m → k ≠ genId m := by
  intro m hm he
  rw [he, hfresh m hm] at h
  cases h

/-- An absent key that the uuid supply will never mint again stays absent
for the rest of any non-id-forging trace. -/
theorem get_run_none {st : SState} {ops : List Op} {k : String}
    (hinv : SInv st) (hops : ∀ op ∈ ops, OpNoForgeId op)
    (hk : storeGet st.store k = none)
    (hfut : ∀ m, st.nextId ≤ m → k ≠ genId m) :
    storeGet (run st ops).store k = none := by
  induction ops generalizing st with
  | nil => exact hk
  | cons op ops ih =>
    obtain ⟨hwf, hfresh⟩ := hinv
    have hop := hops op (List.mem_cons_self _ _)
    have hrest := fun o ho => hops o (List.mem_cons_of_mem _ ho)
    have hfut2 : ∀ m, (step st op).nextId ≤ m → k ≠ genId m :=
      fun m hm => hfut m (le_trans (nextId_step_le st op) hm)
    refine ih (inv_step ⟨hwf, hfresh⟩ hop) hrest ?_ hfut2
    cases op with
    | create inp now =>
      have hst : (step st (Op.create inp now)).store =
          storeInsert st.store (genId st.nextId)
            { id := genId st.nextId, title := inp.title, artist := inp.artist,
              price := inp.price, url := inp.url, createdAt := now,
              updatedAt := none, sold := false, featured := false } := by
        simp only [step, createOp]
      rw [hst, storeGet_insert, if_neg (hfut st.nextId le_rfl)]
      exact hk
    | getAll => exact hk
    | getById _ => exact hk
    | update id p now =>
      cases hb : storeGet st.store id with
      | none =>
        have hst : step st (Op.update id p now) = st := by
          simp only [step, updateOp, hb]
        rw [hst]
        exact hk
      | some beat =>
        have hbid : beat.id = id := hwf id beat hb
        have hne : k ≠ beat.id := by
          intro he
          rw [he, hbid, hb] at hk
          cases hk
        have hst : (step st (Op.update id p now)).store =
            storeInsert st.store beat.id
              { mergePatch beat p with updatedAt := some now } := by
          simp only [step, updateOp, hb]
        rw [hst, storeGet_insert, if_neg hne]
        exact hk
    | delete id =>
      have hst : (step st (Op.delete id)).store = storeErase st.store id := by
        simp only [step, deleteOp]
      rw [hst, storeGet_erase]
      split
      · rfl
      · exact hk
    | buy id now =>
      cases hb : storeGet st.store id with
      | none =>
        have hst : step st (Op.buy id now) = st := by
          simp only [step, buyOp, hb]
        rw [hst]
        exact hk
      | some beat =>
        have hbid : beat.id = id := hwf id beat hb
        have hne : k ≠ beat.id := by
          intro he
          rw [he, hbid, hb] at hk
          cases hk
        by_cases hs : beat.sold
        · have hst : step st (Op.buy id now) = st := by
            simp only [step, buyOp, hb, if_pos hs]
          rw [hst]
          exact hk
        · have hst : (step st (Op.buy id now)).store =
              storeInsert st.store beat.id
                { beat with sold := true, updatedAt := some now } := by
            simp only [step, buyOp, hb, if_neg hs]
          rw [hst, storeGet_insert, if_neg hne]
          exact hk
    | feature id now =>
      cases hb : storeGet st.store id with
      | none =>
        have hst : step st (Op.feature id now) = st := by
          simp only [step, featureOp, hb]
        rw [hst]
        exact hk
      | some beat =>
        have hbid : beat.id = id := hwf id beat hb
        have hne : k ≠ beat.id := by
          intro he
          rw [he, hbid, hb] at hk
          cases hk
        have hst : (step st (Op.feature id now)).store =
            storeInsert st.store beat.id
              { beat with featured := true, updatedAt := some now } := by
          simp only [step, featureOp, hb]
        rw [hst, storeGet_insert, if_neg hne]
        exact hk
    | searchArtist _ => exact hk
    | searchTitle _ => exact hk

/-- Once a stored record is sold it stays sold while present, along any
trace whose update bodies supply neither `sold` nor `id`. -/
theorem sold_preserved_run {st : SState} {ops : List Op} {k : String} {b b' : Beat}
    (hinv : SInv st) (hops : ∀ op ∈ ops, OpKeepsSold op)
    (hb : storeGet st.store k = some b) (hsold : b.sold = true)
    (hb' : storeGet (run st ops).store k = some b') : b'.sold = true := by
  induction ops generalizing st b with
  | nil =>
    simp only [run] at hb'
    rw [hb] at hb'
    injection hb' with hbb
    rw [← hbb]
    exact hsold
  | cons op ops ih =>
    obtain ⟨hwf, hfresh⟩ := hinv
    have hop := hops op (List.mem_cons_self _ _)
    have hrest := fun o ho => hops o (List.mem_cons_of_mem _ ho)
    have hinv2 : SInv (step st op) := inv_step ⟨hwf, hfresh⟩ (keepsSold_noForgeId hop)
    simp only [run] at hb'
    cases op with
    | create inp now =>
      have hne : k ≠ genId st.nextId :=
        key_not_future hfresh hb st.nextId le_rfl
      have hget : storeGet (step st (Op.create inp now)).store k = some b := by
        have hst : (step st (Op.create inp now)).store =
            storeInsert st.store (genId st.nextId)
              { id := genId st.nextId, title := inp.title, artist := inp.artist,
                price := inp.price, url := inp.url, createdAt := now,
                updatedAt := none, sold := false, featured := false } := by
          simp only [step, createOp]
        rw [hst, storeGet_insert, if_neg hne]
        exact hb
      exact ih hinv2 hrest hget hsold hb'
    | getAll => exact ih hinv2 hrest hb hsold hb'
    | getById _ => exact ih hinv2 hrest hb hsold hb'
    | searchArtist _ => exact ih hinv2 hrest hb hsold hb'
    | searchTitle _ => exact ih hinv2 hrest hb hsold hb'
    | update id p now =>
      cases hbu : storeGet st.store id with
      | none =>
        have hst : step st (Op.update id p now) = st := by
          simp only [step, updateOp, hbu]
        rw [hst] at hb' hinv2
        exact ih hinv2 hrest hb hsold hb'
      | some beat =>
        have hbid : beat.id = id := hwf id beat hbu
        by_cases hk : k = id
        · rw [hk, hbu] at hb
          injection hb with hbb
          subst hbb
          have hubs : ({ mergePatch beat p with updatedAt := some now } : Beat).sold = true := by
            simp [mergePatch, hop.2]
            exact hsold
          have hget : storeGet (step st (Op.update id p now)).store k =
              some { mergePatch beat p with updatedAt := some now } := by
            have hst : (step st (Op.update id p now)).store =
                storeInsert st.store beat.id
                  { mergePatch beat p with updatedAt := some now } := by
              simp only [step, updateOp, hbu]
            rw [hst, storeGet_insert, if_pos (hk.trans hbid.symm)]
          exact ih hinv2 hrest hget hubs hb'
        · have hne : k ≠ beat.id := by
            rw [hbid]
            exact hk
          have hget : storeGet (step st (Op.update id p now)).store k = some b := by
            have hst : (step st (Op.update id p now)).store =
                storeInsert st.store beat.id
                  { mergePatch beat p with updatedAt := some now } := by
              simp only [step, updateOp, hbu]
            rw [hst, storeGet_insert, if_neg hne]
            exact hb
          exact ih hinv2 hrest hget hsold hb'
    | delete id =>
      by_cases hk : k = id
      · have hgone : storeGet (step st (Op.delete id)).store k = none := by
          have hst : (step st (Op.delete id)).store = storeErase st.store id := by
            simp only [step, deleteOp]
          rw [hst, storeGet_erase, if_pos hk]
        have hfut : ∀ m, (step st (Op.delete id)).nextId ≤ m → k ≠ genId m :=
          fun m hm => key_not_future hfresh hb m hm
        have hnone := get_run_none hinv2
          (fun o ho => keepsSold_noForgeId (hrest o ho)) hgone hfut
        rw [hnone] at hb'
        cases hb'
      · have hget : storeGet (step st (Op.delete id)).store k = some b := by
          have hst : (step st (Op.delete id)).store = storeErase st.store id := by
            simp only [step, deleteOp]
          rw [hst, storeGet_erase, if_neg hk]
          exact hb
        exact ih hinv2 hrest hget hsold hb'
    | buy id now =>
      cases hbu : storeGet st.store id with
      | none =>
        have hst : step st (Op.buy id now) = st := by
          simp only [step, buyOp, hbu]
        rw [hst] at hb' hinv2
        exact ih hinv2 hrest hb hsold hb'
      | some beat =>
        have hbid : beat.id = id := hwf id beat hbu
        by_cases hs : beat.sold
        · have hst : step st (Op.buy id now) = st := by
            simp only [step, buyOp, hbu, if_pos hs]
          rw [hst] at hb' hinv2
          exact ih hinv2 hrest hb hsold hb'
        · by_cases hk : k = id
          · exfalso
            rw [hk, hbu] at hb
            injection hb with hbb
            rw [hbb] at hs
            exact hs hsold
          · have hne : k ≠ beat.id := by
              rw [hbid]
              exact hk
            have hget : storeGet (step st (Op.buy id now)).store k = some b := by
              have hst : (step st (Op.buy id now)).store =
                  storeInsert st.store beat.id
                    { beat with sold := true, updatedAt := some now } := by
                simp only [step, buyOp, hbu, if_neg hs]
              rw [hst, storeGet_insert, if_neg hne]
              exact hb
            exact ih hinv2 hrest hget hsold hb'
    | feature id now =>
      cases hbu : storeGet st.store id with
      | none =>
        have hst : step st (Op.feature id now) = st := by
          simp only [step, featureOp, hbu]
        rw [hst] at hb' hinv2
        exact ih hinv2 hrest hb hsold hb'
      | some beat =>
        have hbid : beat.id = id := hwf id beat hbu
        by_cases hk : k = id
        · rw [hk, hbu] at hb
          injection hb with hbb
          subst hbb
          have hget : storeGet (step st (Op.feature id now)).store k =
              some { beat with featured := true, updatedAt := some now } := by
            have hst : (step st (Op.feature id now)).store =
                storeInsert st.store beat.id
                  { beat with featured := true, updatedAt := some now } := by
              simp only [step, featureOp, hbu]
            rw [hst, storeGet_insert, if_pos (hk.trans hbid.symm)]
          exact ih hinv2 hrest hget hsold hb'
        · have hne : k ≠ beat.id := by
            rw [hbid]
            exact hk
          have hget : storeGet (step st (Op.feature id now)).store k = some b := by
            have hst : (step st (Op.feature id now)).store =
                storeInsert st.store beat.id
                  { beat with featured := true, updatedAt := some now } := by
              simp only [step, featureOp, hbu]
            rw [hst, storeGet_insert, if_neg hne]
            exact hb
          exact ih hinv2 hrest hget hsold hb'

/-- Cleanliness only depends on the record stored under the key. -/
theorem CleanAt_congr {s1 s2 : Store} (k : String)
    (h : storeGet s1 k = storeGet s2 k) : CleanAt s1 k ↔ CleanAt s2 k := by
  unfold CleanAt
  rw [h]

/-- One request from an invariant state either turns "clean at `k`" into
"clean at `k` and `k` not successfully mutated by this request", or erases
`k` for good (the supply never mints it again). -/
theorem clean_or_dead {st : SState} (op : Op) (k : String) (hinv : SInv st) :
    ((CleanAt st.store k ∧ mutatesKey st.store k op = false) ↔
      CleanAt (step st op).store k) ∨
    (storeGet (step st op).store k = none ∧
      ∀ m, (step st op).nextId ≤ m → k ≠ genId m) := by
  obtain ⟨hwf, hfresh⟩ := hinv
  cases op with
  | getAll =>
    left
    exact ⟨fun h => h.1, fun h => ⟨h, rfl⟩⟩
  | getById _ =>
    left
    exact ⟨fun h => h.1, fun h => ⟨h, rfl⟩⟩
  | searchArtist _ =>
    left
    exact ⟨fun h => h.1, fun h => ⟨h, rfl⟩⟩
  | searchTitle _ =>
    left
    exact ⟨fun h => h.1, fun h => ⟨h, rfl⟩⟩
  | create inp now =>
    have hst : (step st (Op.create inp now)).store =
        storeInsert st.store (genId st.nextId)
          { id := genId st.nextId, title := inp.title, artist := inp.artist,
            price := inp.price, url := inp.url, createdAt := now,
            updatedAt := none, sold := false, featured := false } := by
      simp only [step, createOp]
    left
    by_cases hk : k = genId st.nextId
    · constructor
      · intro _ b2 hb2
        rw [hst, storeGet_insert, if_pos hk] at hb2
        injection hb2 with h2
        rw [← h2]
      · intro _
        refine ⟨?_, rfl⟩
        intro b2 hb2
        rw [hk, hfresh st.nextId le_rfl] at hb2
        cases hb2
    · have hgeq : storeGet (step st (Op.create inp now)).store k =
          storeGet st.store k := by
        rw [hst, storeGet_insert, if_neg hk]
      constructor
      · rintro ⟨hc, _⟩
        exact (CleanAt_congr k hgeq).mpr hc
      · intro hcl
        exact ⟨(CleanAt_congr k hgeq).mp hcl, rfl⟩
  | update id p now =>
    cases hbu : storeGet st.store id with
    | none =>
      left
      have hM : mutatesKey st.store k (Op.update id p now) = false := by
        simp [mutatesKey, hbu]
      have hgeq : storeGet (step st (Op.update id p now)).store k =
          storeGet st.store k := by
        have hst : step st (Op.update id p now) = st := by
          simp only [step, updateOp, hbu]
        rw [hst]
      constructor
      · rintro ⟨hc, _⟩
        exact (CleanAt_congr k hgeq).mpr hc
      · intro hcl
        exact ⟨(CleanAt_congr k hgeq).mp hcl, hM⟩
    | some beat =>
      have hbid : beat.id = id := hwf id beat hbu
      have hst : (step st (Op.update id p now)).store =
          storeInsert st.store beat.id
            { mergePatch beat p with updatedAt := some now } := by
        simp only [step, updateOp, hbu]
      left
      by_cases hk : k = id
      · have hM : mutatesKey st.store k (Op.update id p now) = true := by
          simp [mutatesKey, hbu, hk]
        have hget : storeGet (step st (Op.update id p now)).store k =
            some { mergePatch beat p with updatedAt := some now } := by
          rw [hst, storeGet_insert, if_pos (hk.trans hbid.symm)]
        constructor
        · rintro ⟨_, hMf⟩
          rw [hM] at hMf
          cases hMf
        · intro hcl
          exfalso
          exact Option.noConfusion (hcl _ hget)
      · have hM : mutatesKey st.store k (Op.update id p now) = false := by
          simp [mutatesKey]
          intro he
          exact absurd he.symm hk
        have hne : k ≠ beat.id := by
          rw [hbid]
          exact hk
        have hgeq : storeGet (step st (Op.update id p now)).store k =
            storeGet st.store k := by
          rw [hst, storeGet_insert, if_neg hne]
        constructor
        · rintro ⟨hc, _⟩
          exact (CleanAt_congr k hgeq).mpr hc
        · intro hcl
          exact ⟨(CleanAt_congr k hgeq).mp hcl, hM⟩
  | delete id =>
    have hst : (step st (Op.delete id)).store = storeErase st.store id := by
      simp only [step, deleteOp]
    by_cases hk : k = id
    · cases hku : storeGet st.store k with
      | none =>
        left
        have hgeq : storeGet (step st (Op.delete id)).store k =
            storeGet st.store k := by
          rw [hst, storeGet_erase, if_pos hk, hku]
        constructor
        · rintro ⟨hc, _⟩
          exact (CleanAt_congr k hgeq).mpr hc
        · intro hcl
          exact ⟨(CleanAt_congr k hgeq).mp hcl, rfl⟩
      | some beat =>
        right
        refine ⟨?_, ?_⟩
        · rw [hst, storeGet_erase, if_pos hk]
        · intro m hm
          exact key_not_future hfresh hku m hm
    · left
      have hgeq : storeGet (step st (Op.delete id)).store k =
          storeGet st.store k := by
        rw [hst, storeGet_erase, if_neg hk]
      constructor
      · rintro ⟨hc, _⟩
        exact (CleanAt_congr k hgeq).mpr hc
      · intro hcl
        exact ⟨(CleanAt_congr k hgeq).mp hcl, rfl⟩
  | buy id now =>
    cases hbu : storeGet st.store id with
    | none =>
      left
      have hM : mutatesKey st.store k (Op.buy id now) = false := by
        simp [mutatesKey, hbu]
      have hgeq : storeGet (step st (Op.buy id now)).store k =
          storeGet st.store k := by
        have hst : step st (Op.buy id now) = st := by
          simp only [step, buyOp, hbu]
        rw [hst]
      constructor
      · rintro ⟨hc, _⟩
        exact (CleanAt_congr k hgeq).mpr hc
      · intro hcl
        exact ⟨(CleanAt_congr k hgeq).mp hcl, hM⟩
    | some beat =>
      have hbid : beat.id = id := hwf id beat hbu
      by_cases hs : beat.sold
      · left
        have hM : mutatesKey st.store k (Op.buy id now) = false := by
          simp [mutatesKey, hbu, hs]
        have hgeq : storeGet (step st (Op.buy id now)).store k =
            storeGet st.store k := by
          have hst : step st (Op.buy id now) = st := by
            simp only [step, buyOp, hbu, if_pos hs]
          rw [hst]
        constructor
        · rintro ⟨hc, _⟩
          exact (CleanAt_congr k hgeq).mpr hc
        · intro hcl
          exact ⟨(CleanAt_congr k hgeq).mp hcl, hM⟩
      · have hst : (step st (Op.buy id now)).store =
            storeInsert st.store beat.id
              { beat with sold := true, updatedAt := some now } := by
          simp only [step, buyOp, hbu, if_neg hs]
        left
        by_cases hk : k = id
        · have hM : mutatesKey st.store k (Op.buy id now) = true := by
            simp [mutatesKey, hbu, hk, hs]
          have hget : storeGet (step st (Op.buy id now)).store k =
              some { beat with sold := true, updatedAt := some now } := by
            rw [hst, storeGet_insert, if_pos (hk.trans hbid.symm)]
          constructor
          · rintro ⟨_, hMf⟩
            rw [hM] at hMf
            cases hMf
          · intro hcl
            exfalso
            exact Option.noConfusion (hcl _ hget)
        · have hM : mutatesKey st.store k (Op.buy id now) = false := by
            simp [mutatesKey]
            intro he
            exact absurd he.symm hk
          have hne : k ≠ beat.id := by
            rw [hbid]
            exact hk
          have hgeq : storeGet (step st (Op.buy id now)).store k =
              storeGet st.store k := by
            rw [hst, storeGet_insert, if_neg hne]
          constructor
          · rintro ⟨hc, _⟩
            exact (CleanAt_congr k hgeq).mpr hc
          · intro hcl
            exact ⟨(CleanAt_congr k hgeq).mp hcl, hM⟩
  | feature id now =>
    cases hbu : storeGet st.store id with
    | none =>
      left
      have hM : mutatesKey st.store k (Op.feature id now) = false := by
        simp [mutatesKey, hbu]
      have hgeq : storeGet (step st (Op.feature id now)).store k =
          storeGet st.store k := by
        have hst : step st (Op.feature id now) = st := by
          simp only [step, featureOp, hbu]
        rw [hst]
      constructor
      · rintro ⟨hc, _⟩
        exact (CleanAt_congr k hgeq).mpr hc
      · intro hcl
        exact ⟨(CleanAt_congr k hgeq).mp hcl, hM⟩
    | some beat =>
      have hbid : beat.id = id := hwf id beat hbu
      have hst : (step st (Op.feature id now)).store =
          storeInsert st.store beat.id
            { beat with featured := true, updatedAt := some now } := by
        simp only [step, featureOp, hbu]
      left
      by_cases hk : k = id
      · have hM : mutatesKey st.store k (Op.feature id now) = true := by
          simp [mutatesKey, hbu, hk]
        have hget : storeGet (step st (Op.feature id now)).store k =
            some { beat with featured := true, updatedAt := some now } := by
          rw [hst, storeGet_insert, if_pos (hk.trans hbid.symm)]
        constructor
        · rintro ⟨_, hMf⟩
          rw [hM] at hMf
          cases hMf
        · intro hcl
          exfalso
          exact Option.noConfusion (hcl _ hget)
      · have hM : mutatesKey st.store k (Op.feature id now) = false := by
          simp [mutatesKey]
          intro he
          exact absurd he.symm hk
        have hne : k ≠ beat.id := by
          rw [hbid]
          exact hk
        have hgeq : storeGet (step st (Op.feature id now)).store k =
            storeGet st.store k := by
          rw [hst, storeGet_insert, if_neg hne]
        constructor
        · rintro ⟨hc, _⟩
          exact (CleanAt_congr k hgeq).mpr hc
        · intro hcl
          exact ⟨(CleanAt_congr k hgeq).mp hcl, hM⟩

/-- Along a non-id-forging trace, the final record under `k` is unstamped
exactly when it was unstamped (or absent) at the start and no request of the
trace successfully mutated `k`. -/
theorem clean_iff_run {ops : List Op} {st : SState} {k : String} {b : Beat}
    (hinv : SInv st) (hops : ∀ op ∈ ops, OpNoForgeId op)
    (hb : storeGet (run st ops).store k = some b) :
    (b.updatedAt = none ↔ (CleanAt st.store k ∧ traceMutates st k ops = false)) := by
  induction ops generalizing st with
  | nil =>
    simp only [run] at hb
    simp only [traceMutates]
    constructor
    · intro h
      refine ⟨?_, trivial⟩
      intro b2 hb2
      rw [hb] at hb2
      injection hb2 with h2
      rw [← h2]
      exact h
    · intro h
      exact h.1 b hb
  | cons op ops ih =>
    have hop := hops op (List.mem_cons_self _ _)
    have hrest := fun o ho => hops o (List.mem_cons_of_mem _ ho)
    have hinv2 := inv_step hinv hop
    simp only [run] at hb
    have IH := ih hinv2 hrest hb
    simp only [traceMutates, Bool.or_eq_false_iff]
    rcases clean_or_dead op k hinv with hA | hB
    · rw [IH]
      constructor
      · intro hc
        have h2 := hA.mpr hc.1
        exact ⟨h2.1, h2.2, hc.2⟩
      · rintro ⟨hc, hM, hT⟩
        exact ⟨hA.mp ⟨hc, hM⟩, hT⟩
    · exfalso
      have hnone := get_run_none hinv2 hrest hB.1 hB.2
      rw [hnone] at hb
      cases hb

/-- Every id minted during a trace comes from a counter at or above the
starting counter. -/
theorem createdIds_ge {ops : List Op} {st : SState} {x : String}
    (hx : x ∈ createdIds st ops) : ∃ m, st.nextId ≤ m ∧ x = genId m := by
  induction ops generalizing st with
  | nil => cases hx
  | cons op ops ih =>
    cases op with
    | create inp now =>
      rw [createdIds] at hx
      rcases List.mem_cons.mp hx with h | h
      · exact ⟨st.nextId, le_rfl, h⟩
      · obtain ⟨m, hm, he⟩ := ih h
        exact ⟨m, le_trans (nextId_step_le st (Op.create inp now)) hm, he⟩
    | getAll =>
      obtain ⟨m, hm, he⟩ := ih hx
      exact ⟨m, hm, he⟩
    | getById id =>
      obtain ⟨m, hm, he⟩ := ih hx
      exact ⟨m, hm, he⟩
    | update id p now =>
      obtain ⟨m, hm, he⟩ := ih hx
      exact ⟨m, le_trans (nextId_step_le st (Op.update id p now)) hm, he⟩
    | delete id =>
      obtain ⟨m, hm, he⟩ := ih hx
      exact ⟨m, le_trans (nextId_step_le st (Op.delete id)) hm, he⟩
    | buy id now =>
      obtain ⟨m, hm, he⟩ := ih hx
      exact ⟨m, le_trans (nextId_step_le st (Op.buy id now)) hm, he⟩
    | feature id now =>
      obtain ⟨m, hm, he⟩ := ih hx
      exact ⟨m, le_trans (nextId_step_le st (Op.feature id now)) hm, he⟩
    | searchArtist q =>
      obtain ⟨m, hm, he⟩ := ih hx
      exact ⟨m, hm, he⟩
    | searchTitle q =>
      obtain ⟨m, hm, he⟩ := ih hx
      exact ⟨m, hm, he⟩

/-- The ids minted along any trace are pairwise distinct. -/
theorem createdIds_nodup (st : SState) (ops : List Op) :
    (createdIds st ops).Nodup := by
  induction ops generalizing st with
  | nil => exact List.nodup_nil
  | cons op ops ih =>
    cases op with
    | create inp now =>
      rw [createdIds]
      refine List.nodup_cons.mpr ⟨?_, ih _⟩
      intro hmem
      obtain ⟨m, hm, he⟩ := createdIds_ge hmem
      have hm2 : st.nextId + 1 ≤ m := hm
      have := genId_inj he
      omega
    | getAll => exact ih _
    | getById id => exact ih _
    | update id p now => exact ih _
    | delete id => exact ih _
    | buy id now => exact ih _
    | feature id now => exact ih _
    | searchArtist q => exact ih _
    | searchTitle q => exact ih _

/-! ## Substring-search lemmas -/

/-- Predicate `leadEq` holds exactly when the second list starts with the first. -/
theorem leadEq_iff (n : List Char) : ∀ h : List Char,
    (leadEq n h = true ↔ ∃ r, h = n ++ r) := by
  induction n with
  | nil =>
    intro h
    simp [leadEq]
  | cons a as ih =>
    intro h
    cases h with
    | nil =>
      simp [leadEq]
    | cons b bs =>
      rw [show leadEq (a :: as) (b :: bs) = (a == b && leadEq as bs) from rfl]
      rw [Bool.and_eq_true, beq_iff_eq, ih bs]
      constructor
      · rintro ⟨rfl, r, rfl⟩
        exact ⟨r, rfl⟩
      · rintro ⟨r, hr⟩
        simp only [List.cons_append] at hr
        injection hr with h1 h2
        exact ⟨h1.symm, r, h2⟩

/-- Predicate `hasSub` holds exactly when the needle occurs as a contiguous run of the
haystack. -/
theorem hasSub_iff (n : List Char) : ∀ h : List Char,
    (hasSub n h = true ↔ ∃ l r, h = l ++ n ++ r) := by
  intro h
  induction h with
  | nil =>
    constructor
    · intro hh
      have hn : n = [] := by
        cases n with
        | nil => rfl
        | cons a as => simp [hasSub, List.isEmpty] at hh
      subst hn
      exact ⟨[], [], rfl⟩
    · rintro ⟨l, r, hl⟩
      rcases List.append_eq_nil.mp hl.symm with ⟨h1, h2⟩
      rcases List.append_eq_nil.mp h1 with ⟨h3, h4⟩
      subst h4
      simp [hasSub, List.isEmpty]
  | cons c t ih =>
    rw [show hasSub n (c :: t) = (leadEq n (c :: t) || hasSub n t) from rfl]
    rw [Bool.or_eq_true, leadEq_iff n (c :: t), ih]
    constructor
    · rintro (⟨r, hr⟩ | ⟨l, r, hr⟩)
      · exact ⟨[], r, by simp [hr]⟩
      · exact ⟨c :: l, r, by simp [hr]⟩
    · rintro ⟨l, r, hr⟩
      cases l with
      | nil =>
        left
        exact ⟨r, by simpa using hr⟩
      | cons x xs =>
        right
        simp only [List.cons_append] at hr
        injection hr with h1 h2
        exact ⟨xs, r, h2⟩

/-- The search predicate of the source coincides with the case-insensitive
substring relation. -/
theorem lcIncludes_iff (hay q : String) :
    (lcIncludes hay (lowerStr q) = true ↔ IsCISub q hay) := by
  unfold lcIncludes IsCISub
  exact hasSub_iff (lowerStr q).data (lowerStr hay).data

/-- A case-insensitive substring is no longer than the text it occurs in. -/
theorem ciSub_length_le {q a : String} (h : IsCISub q a) :
    (lowerStr q).data.length ≤ (lowerStr a).data.length := by
  obtain ⟨l, r, hl⟩ := h
  have h2 := congrArg List.length hl
  simp only [List.length_append] at h2
  omega

/-- A singleton store keyed by the record's own id is well-formed. -/
theorem wfStore_singleton (b : Beat) : WFStore [(b.id, b)] := by
  intro k v h
  rw [storeGet] at h
  split at h
  · next heq =>
    injection h with h2
    rw [← h2, heq]
  · cases h

/-- Overwriting an existing key does not change which keys are present. -/
theorem storeGet_isSome_insert_existing {s : Store} {id : String} {b : Beat}
    (hb : storeGet s id = some b) (v : Beat) (k : String) :
    (storeGet (storeInsert s id v) k).isSome = (storeGet s k).isSome := by
  rw [storeGet_insert]
  split
  · next h =>
    rw [h, hb]
    rfl
  · rfl

/-! ## The claims -/

/-- C2: `buy(id)` answers NotFound when `id` is absent; AlreadySold when the
stored record is already sold, leaving the store untouched; otherwise it
returns the stored record with `sold := true` and `updatedAt := now`, stores
it under `id`, and any subsequent buy of the same id then fails with
AlreadySold leaving the store unchanged, the record's `sold` staying true. -/
theorem spec_C2 (s : Store) (id : String) (now now2 : Nat) (hwf : WFStore s) :
    (storeGet s id = none → buyOp s id now = (BuyResult.notFound, s)) ∧
    (∀ b, storeGet s id = some b → b.sold = true →
      buyOp s id now = (BuyResult.alreadySold, s)) ∧
    (∀ b, storeGet s id = some b → b.sold = false →
      buyOp s id now =
        (BuyResult.bought { b with sold := true, updatedAt := some now },
         storeInsert s id { b with sold := true, updatedAt := some now }) ∧
      storeGet (buyOp s id now).2 id =
        some { b with sold := true, updatedAt := some now } ∧
      buyOp (buyOp s id now).2 id now2 =
        (BuyResult.alreadySold, (buyOp s id now).2)) := by
  refine ⟨?_, ?_, ?_⟩
  · intro h
    simp only [buyOp, h]
  · intro b hb hs
    simp only [buyOp, hb, if_pos hs]
  · intro b hb hs
    have hbid : b.id = id := hwf id b hb
    have hns : ¬ b.sold = true := by
      rw [hs]
      exact Bool.false_ne_true
    have h1 : buyOp s id now =
        (BuyResult.bought { b with sold := true, updatedAt := some now },
         storeInsert s id { b with sold := true, updatedAt := some now }) := by
      simp only [buyOp, hb]
      rw [if_neg hns, hbid]
    have h2 : (buyOp s id now).2 =
        storeInsert s id { b with sold := true, updatedAt := some now } := by
      rw [h1]
    have hget2 : storeGet (buyOp s id now).2 id =
        some { b with sold := true, updatedAt := some now } := by
      rw [h2, storeGet_insert, if_pos rfl]
    refine ⟨h1, hget2, ?_⟩
    rw [h2] at hget2 ⊢
    simp only [buyOp, hget2]
    rw [if_pos trivial]

/-- C3: `update(id, fields)` answers NotFound when `id` is absent; otherwise
it stores and returns the record obtained by overwriting exactly the
supplied fields over the stored record — any supplied field, including
`id`, `createdAt`, `sold`, `featured` and `updatedAt`, overwrites the
stored value — after which `updatedAt` is set to the current host time; in
particular an update supplying no `title`, `artist` or `url` leaves those
fields at the prior record's values. -/
theorem spec_C3 (s : Store) (id : String) (p : BeatPatch) (now : Nat)
    (hwf : WFStore s) :
    (storeGet s id = none → updateOp s id p now = (none, s)) ∧
    (∀ b, storeGet s id = some b →
      updateOp s id p now =
        (some { mergePatch b p with updatedAt := some now },
         storeInsert s id { mergePatch b p with updatedAt := some now }) ∧
      ({ mergePatch b p with updatedAt := some now } : Beat).title =
        p.title.getD b.title ∧
      ({ mergePatch b p with updatedAt := some now } : Beat).artist =
        p.artist.getD b.artist ∧
      ({ mergePatch b p with updatedAt := some now } : Beat).price =
        p.price.getD b.price ∧
      ({ mergePatch b p with updatedAt := some now } : Beat).url =
        p.url.getD b.url ∧
      ({ mergePatch b p with updatedAt := some now } : Beat).id =
        p.id.getD b.id ∧
      ({ mergePatch b p with updatedAt := some now } : Beat).createdAt =
        p.createdAt.getD b.createdAt ∧
      ({ mergePatch b p with updatedAt := some now } : Beat).sold =
        p.sold.getD b.sold ∧
      ({ mergePatch b p with updatedAt := some now } : Beat).featured =
        p.featured.getD b.featured ∧
      ({ mergePatch b p with updatedAt := some now } : Beat).updatedAt =
        some now ∧
      storeGet (updateOp s id p now).2 id =
        some { mergePatch b p with updatedAt := some now } ∧
      (p.title = none →
        ({ mergePatch b p with updatedAt := some now } : Beat).title = b.title) ∧
      (p.artist = none →
        ({ mergePatch b p with updatedAt := some now } : Beat).artist = b.artist) ∧
      (p.url = none →
        ({ mergePatch b p with updatedAt := some now } : Beat).url = b.url) ∧
      (∀ pr, p.price = some pr →
        ({ mergePatch b p with updatedAt := some now } : Beat).price = pr)) := by
  constructor
  · intro h
    simp only [updateOp, h]
  · intro b hb
    have hbid : b.id = id := hwf id b hb
    have h1 : updateOp s id p now =
        (some { mergePatch b p with updatedAt := some now },
         storeInsert s id { mergePatch b p with updatedAt := some now }) := by
      simp only [updateOp, hb]
      rw [hbid]
    have hget : storeGet (updateOp s id p now).2 id =
        some { mergePatch b p with updatedAt := some now } := by
      have h2 : (updateOp s id p now).2 =
          storeInsert s id { mergePatch b p with updatedAt := some now } := by
        rw [h1]
      rw [h2, storeGet_insert, if_pos rfl]
    refine ⟨h1, rfl, rfl, rfl, rfl, rfl, rfl, rfl, rfl, rfl, hget, ?_, ?_, ?_, ?_⟩
    · intro h
      simp [mergePatch, h]
    · intro h
      simp [mergePatch, h]
    · intro h
      simp [mergePatch, h]
    · intro pr h
      simp [mergePatch, h]

/-- C6: `delete(id)` returns the stored record and removes it when present,
and NotFound when absent; after a successful delete, `getById(id)` (a store
lookup) answers NotFound and a second delete also answers NotFound. -/
theorem spec_C6 (s : Store) (id : String) :
    (storeGet s id = none → deleteOp s id = (none, s)) ∧
    (∀ b, storeGet s id = some b →
      (deleteOp s id).1 = some b ∧
      getByIdOp (deleteOp s id).2 id = none ∧
      (deleteOp (deleteOp s id).2 id).1 = none) := by
  constructor
  · intro h
    unfold deleteOp
    rw [h, storeErase_absent h]
  · intro b hb
    refine ⟨hb, ?_, ?_⟩
    · show storeGet (storeErase s id) id = none
      rw [storeGet_erase, if_pos rfl]
    · show storeGet (storeErase s id) id = none
      rw [storeGet_erase, if_pos rfl]

/-- C9 (amended): provided the record stored under `id` carries `id` as its
own id field (true of every store reachable without id-forging updates),
`update(id, fields)` keeps the set of present keys unchanged and stores the
merged record under the original key, even when the supplied fields carry a
different id value `j`; the stored record's id field then equals `j`, no
longer the key it sits under, and looking up the forged `j` (not previously
a key) answers NotFound. -/
theorem spec_C9 (s : Store) (id : String) {b : Beat} (p : BeatPatch) (now : Nat)
    (hb : storeGet s id = some b) (hid : b.id = id) :
    (∀ k, (storeGet (updateOp s id p now).2 k).isSome = (storeGet s k).isSome) ∧
    storeGet (updateOp s id p now).2 id =
      some { mergePatch b p with updatedAt := some now } ∧
    (∀ j, p.id = some j →
      ({ mergePatch b p with updatedAt := some now } : Beat).id = j ∧
      (j ≠ id → storeGet s j = none →
        storeGet (updateOp s id p now).2 j = none)) := by
  have hst : (updateOp s id p now).2 =
      storeInsert s id { mergePatch b p with updatedAt := some now } := by
    simp only [updateOp, hb]
    rw [hid]
  refine ⟨?_, ?_, ?_⟩
  · intro k
    rw [hst]
    exact storeGet_isSome_insert_existing hb _ k
  · rw [hst, storeGet_insert, if_pos rfl]
  · intro j hj
    constructor
    · simp [mergePatch, hj]
    · intro hne hnone
      rw [hst, storeGet_insert, if_neg hne]
      exact hnone

/-- C10: every operation that answers an error leaves the store unchanged:
update, delete, buy and feature on an absent id, buy on an already sold
record, and getById (which never writes). -/
theorem spec_C10 (s : Store) (id : String) (p : BeatPatch) (now : Nat)
    (st : SState) :
    (storeGet s id = none →
      (updateOp s id p now).2 = s ∧ (deleteOp s id).2 = s ∧
      (buyOp s id now).2 = s ∧ (featureOp s id now).2 = s) ∧
    (∀ b, storeGet s id = some b → b.sold = true → (buyOp s id now).2 = s) ∧
    step st (Op.getById id) = st := by
  refine ⟨?_, ?_, rfl⟩
  · intro h
    refine ⟨?_, ?_, ?_, ?_⟩
    · simp only [updateOp, h]
    · show storeErase s id = s
      exact storeErase_absent h
    · simp only [buyOp, h]
    · simp only [featureOp, h]
  · intro b hb hs
    simp only [buyOp, hb, if_pos hs]

/-- C1 (amended): after a successful `buy(k)`, no sequence of exposed
operations whose update bodies supply neither `sold` nor `id` ever yields a
state where the record present at `k` has `sold = false`; an update
supplying `sold: false` (or forging `id`) can break this, as the
counterexample shows. -/
theorem spec_C1 {st : SState} {k : String} {now : Nat} {bb b' : Beat}
    {s2 : Store} (ops : List Op)
    (hinv : SInv st) (hbuy : buyOp st.store k now = (BuyResult.bought bb, s2))
    (hops : ∀ op ∈ ops, OpKeepsSold op)
    (hb' : storeGet (run ⟨s2, st.nextId⟩ ops).store k = some b') :
    b'.sold = true := by
  cases hbg : storeGet st.store k with
  | none =>
    simp only [buyOp, hbg] at hbuy
    cases hbuy
  | some beat =>
    by_cases hs : beat.sold
    · simp only [buyOp, hbg] at hbuy
      rw [if_pos hs] at hbuy
      cases hbuy
    · have hbid : beat.id = k := hinv.1 k beat hbg
      have hbuy2 : (BuyResult.bought
            ({ beat with sold := true, updatedAt := some now } : Beat),
          storeInsert st.store beat.id
            { beat with sold := true, updatedAt := some now }) =
          (BuyResult.bought bb, s2) := by
        rw [← hbuy]
        simp only [buyOp, hbg, if_neg hs]
      injection hbuy2 with hb1 hb2
      injection hb1 with hb1
      have hinv2 : SInv (⟨s2, st.nextId⟩ : SState) := by
        have hst : step st (Op.buy k now) = ⟨s2, st.nextId⟩ := by
          simp only [step]
          rw [show (buyOp st.store k now).2 = s2 from congrArg Prod.snd hbuy]
        rw [← hst]
        exact inv_step hinv trivial
      have hb0 : storeGet s2 k =
          some ({ beat with sold := true, updatedAt := some now } : Beat) := by
        rw [← hb2, storeGet_insert, if_pos hbid.symm]
      have hsold0 : ({ beat with sold := true, updatedAt := some now } : Beat).sold
          = true := rfl
      exact sold_preserved_run hinv2 hops hb0 hsold0 hb'

/-- C4: `create` mints the next fresh id of the supply, stamps `createdAt`
with the host time, copies the four supplied fields, sets `updatedAt`
absent, `sold = false`, `featured = false`, stores the record under its id
and returns it; it is total (never fails), and along any trace the minted
ids are pairwise distinct. -/
theorem spec_C4 :
    (∀ st : SState, ∀ inp now,
      (createOp st.store (genId st.nextId) now inp).1.id = genId st.nextId ∧
      (createOp st.store (genId st.nextId) now inp).1.title = inp.title ∧
      (createOp st.store (genId st.nextId) now inp).1.artist = inp.artist ∧
      (createOp st.store (genId st.nextId) now inp).1.price = inp.price ∧
      (createOp st.store (genId st.nextId) now inp).1.url = inp.url ∧
      (createOp st.store (genId st.nextId) now inp).1.createdAt = now ∧
      (createOp st.store (genId st.nextId) now inp).1.updatedAt = none ∧
      (createOp st.store (genId st.nextId) now inp).1.sold = false ∧
      (createOp st.store (genId st.nextId) now inp).1.featured = false ∧
      storeGet (createOp st.store (genId st.nextId) now inp).2 (genId st.nextId) =
        some (createOp st.store (genId st.nextId) now inp).1) ∧
    (∀ st ops, (createdIds st ops).Nodup) := by
  constructor
  · intro st inp now
    refine ⟨rfl, rfl, rfl, rfl, rfl, rfl, rfl, rfl, rfl, ?_⟩
    simp only [createOp]
    rw [storeGet_insert, if_pos rfl]
  · exact createdIds_nodup

/-- C5: a record's `updatedAt` is absent exactly while it has never been
mutated: create leaves it absent, every successful update, buy and feature
stamps it with the host time, and along any non-id-forging trace from the
empty store the record found under `k` is unstamped iff no request of the
trace successfully mutated `k`. -/
theorem spec_C5 :
    (∀ s fresh now inp, (createOp s fresh now inp).1.updatedAt = none) ∧
    (∀ s id p now m s2, updateOp s id p now = (some m, s2) →
      m.updatedAt = some now) ∧
    (∀ s id now bb s2, buyOp s id now = (BuyResult.bought bb, s2) →
      bb.updatedAt = some now) ∧
    (∀ s id now bb s2, featureOp s id now = (some bb, s2) →
      bb.updatedAt = some now) ∧
    (∀ ops k b, (∀ op ∈ ops, OpNoForgeId op) →
      storeGet (run initState ops).store k = some b →
      (b.updatedAt = none ↔ traceMutates initState k ops = false)) := by
  refine ⟨fun s fresh now inp => rfl, ?_, ?_, ?_, ?_⟩
  · intro s id p now m s2 h
    cases hb : storeGet s id with
    | none =>
      simp only [updateOp, hb] at h
      cases h
    | some beat =>
      simp only [updateOp, hb] at h
      injection h with h1 h2
      injection h1 with h1
      rw [← h1]
  · intro s id now bb s2 h
    cases hb : storeGet s id with
    | none =>
      simp only [buyOp, hb] at h
      cases h
    | some beat =>
      by_cases hs : beat.sold
      · simp only [buyOp, hb] at h
        rw [if_pos hs] at h
        cases h
      · have h2 : (BuyResult.bought
              ({ beat with sold := true, updatedAt := some now } : Beat),
            storeInsert s beat.id
              { beat with sold := true, updatedAt := some now }) =
            (BuyResult.bought bb, s2) := by
          rw [← h]
          simp only [buyOp, hb, if_neg hs]
        injection h2 with h1 _
        injection h1 with h1
        rw [← h1]
  · intro s id now bb s2 h
    cases hb : storeGet s id with
    | none =>
      simp only [featureOp, hb] at h
      cases h
    | some beat =>
      simp only [featureOp, hb] at h
      injection h with h1 h2
      injection h1 with h1
      rw [← h1]
  · intro ops k b hops hb
    have hclean : CleanAt initState.store k := by
      intro b2 hb2
      exact Option.noConfusion hb2
    rw [clean_iff_run inv_init hops hb]
    exact and_iff_right hclean

/-- C7: the artist search returns exactly the stored records whose artist
contains the query as a case-insensitive substring, in store order, and the
empty sequence (not an error) when nothing matches; the title search
satisfies the same contract against `title`. -/
theorem spec_C7 (s : Store) (q : String) :
    (∀ b, b ∈ searchByArtistOp s q ↔ b ∈ storeValues s ∧ IsCISub q b.artist) ∧
    (searchByArtistOp s q).Sublist (storeValues s) ∧
    ((∀ b ∈ storeValues s, ¬ IsCISub q b.artist) → searchByArtistOp s q = []) ∧
    (∀ b, b ∈ searchByTitleOp s q ↔ b ∈ storeValues s ∧ IsCISub q b.title) ∧
    (searchByTitleOp s q).Sublist (storeValues s) ∧
    ((∀ b ∈ storeValues s, ¬ IsCISub q b.title) → searchByTitleOp s q = []) := by
  refine ⟨?_, ?_, ?_, ?_, ?_, ?_⟩
  · intro b
    rw [searchByArtistOp, List.mem_filter]
    constructor
    · rintro ⟨h1, h2⟩
      exact ⟨h1, (lcIncludes_iff b.artist q).mp h2⟩
    · rintro ⟨h1, h2⟩
      exact ⟨h1, (lcIncludes_iff b.artist q).mpr h2⟩
  · exact List.filter_sublist _
  · intro h
    rw [searchByArtistOp, List.filter_eq_nil_iff]
    intro b hb hin
    exact h b hb ((lcIncludes_iff b.artist q).mp hin)
  · intro b
    rw [searchByTitleOp, List.mem_filter]
    constructor
    · rintro ⟨h1, h2⟩
      exact ⟨h1, (lcIncludes_iff b.title q).mp h2⟩
    · rintro ⟨h1, h2⟩
      exact ⟨h1, (lcIncludes_iff b.title q).mpr h2⟩
  · exact List.filter_sublist _
  · intro h
    rw [searchByTitleOp, List.filter_eq_nil_iff]
    intro b hb hin
    exact h b hb ((lcIncludes_iff b.title q).mp hin)

/-- C8: `feature(id)` answers NotFound when `id` is absent, and otherwise
stores and returns the record with `featured := true` and
`updatedAt := now`; on an already-featured record the returned record
differs only in `updatedAt`, and a second feature call succeeds, again
changing only `updatedAt`. -/
theorem spec_C8 (s : Store) (id : String) (now now2 : Nat) (hwf : WFStore s) :
    (storeGet s id = none → featureOp s id now = (none, s)) ∧
    (∀ b, storeGet s id = some b →
      featureOp s id now =
        (some { b with featured := true, updatedAt := some now },
         storeInsert s id { b with featured := true, updatedAt := some now }) ∧
      (b.featured = true →
        ({ b with featured := true, updatedAt := some now } : Beat) =
          { b with updatedAt := some now }) ∧
      featureOp (featureOp s id now).2 id now2 =
        (some { b with featured := true, updatedAt := some now2 },
         storeInsert (featureOp s id now).2 id
           { b with featured := true, updatedAt := some now2 })) := by
  constructor
  · intro h
    simp only [featureOp, h]
  · intro b hb
    have hbid : b.id = id := hwf id b hb
    have h1 : featureOp s id now =
        (some { b with featured := true, updatedAt := some now },
         storeInsert s id { b with featured := true, updatedAt := some now }) := by
      simp only [featureOp, hb]
      rw [hbid]
    refine ⟨h1, ?_, ?_⟩
    · intro hf
      rw [← hf]
    · have h2 : (featureOp s id now).2 =
          storeInsert s id { b with featured := true, updatedAt := some now } := by
        rw [h1]
      rw [h2]
      have hget2 : storeGet
          (storeInsert s id { b with featured := true, updatedAt := some now }) id =
          some { b with featured := true, updatedAt := some now } := by
        rw [storeGet_insert, if_pos rfl]
      simp only [featureOp, hget2]
      rw [hbid]

/-- C1 counterexample: from the empty state, create a beat, buy it
successfully, then send an update whose body carries `sold: false`; the
record is still present at its id and its `sold` is back to `false`, so the
one-way invariant fails as originally stated. -/
theorem spec_C1_counterexample :
    (buyOp (run initState [Op.create sampleIn 1]).store (genId 0) 2).1.isBought
      = true ∧
    Option.map Beat.sold (storeGet (run initState
      [Op.create sampleIn 1, Op.buy (genId 0) 2,
       Op.update (genId 0) { sold := some false } 3]).store (genId 0)) =
      some false := by
  exact ⟨by decide, by decide⟩

/-- C9 counterexample: create a beat, forge its `id` field to `"zz"` through
update (the key set is still unchanged, `"zz"` is not a key), then send one
more update through the original key: the handler stores the merged record
under the stored record's forged id field, so `"zz"` becomes a key while the
original key also remains — the key set changes. -/
theorem spec_C9_counterexample :
    (storeGet (run initState [Op.create sampleIn 1,
        Op.update (genId 0) { id := some "zz" } 2]).store "zz").isSome = false ∧
    (storeGet (updateOp (run initState [Op.create sampleIn 1,
        Op.update (genId 0) { id := some "zz" } 2]).store (genId 0)
        { title := some "t" } 3).2 "zz").isSome = true ∧
    (storeGet (updateOp (run initState [Op.create sampleIn 1,
        Op.update (genId 0) { id := some "zz" } 2]).store (genId 0)
        { title := some "t" } 3).2 (genId 0)).isSome = true := by
  exact ⟨by decide, by decide, by decide⟩

/-- C1 witness: a concrete successful buy followed by a feature request; the
record stays sold. -/
theorem spec_C1_witness :
    storeGet (run ⟨[(genId 0,
      { id := genId 0, title := "Night", artist := "Wave", price := 9,
        url := "u1", createdAt := 1, updatedAt := some 2, sold := true,
        featured := false })], 1⟩
      [Op.feature (genId 0) 3]).store (genId 0) =
      some { id := genId 0, title := "Night", artist := "Wave", price := 9,
             url := "u1", createdAt := 1, updatedAt := some 3, sold := true,
             featured := true } ∧
    Beat.sold { id := genId 0, title := "Night", artist := "Wave", price := 9,
                url := "u1", createdAt := 1, updatedAt := some 3, sold := true,
                featured := true } = true := by
  constructor
  · decide
  · have hbuy : buyOp (step initState (Op.create sampleIn 1)).store (genId 0) 2 =
        (BuyResult.bought
          { id := genId 0, title := "Night", artist := "Wave", price := 9,
            url := "u1", createdAt := 1, updatedAt := some 2, sold := true,
            featured := false },
         [(genId 0,
          { id := genId 0, title := "Night", artist := "Wave", price := 9,
            url := "u1", createdAt := 1, updatedAt := some 2, sold := true,
            featured := false })]) := by decide
    exact spec_C1 [Op.feature (genId 0) 3]
      (inv_step inv_init trivial : SInv (step initState (Op.create sampleIn 1))) hbuy
      (by
        intro o ho
        rw [List.mem_singleton] at ho
        subst ho
        trivial)
      (by decide)

/-- C2 witness: buying the concrete unsold sample record. -/
theorem spec_C2_witness :
    buyOp [(sampleBeat.id, sampleBeat)] "x" 5 =
      (BuyResult.bought { sampleBeat with sold := true, updatedAt := some 5 },
       storeInsert [(sampleBeat.id, sampleBeat)] "x"
         { sampleBeat with sold := true, updatedAt := some 5 }) ∧
    storeGet (buyOp [(sampleBeat.id, sampleBeat)] "x" 5).2 "x" =
      some { sampleBeat with sold := true, updatedAt := some 5 } ∧
    buyOp (buyOp [(sampleBeat.id, sampleBeat)] "x" 5).2 "x" 6 =
      (BuyResult.alreadySold, (buyOp [(sampleBeat.id, sampleBeat)] "x" 5).2) := by
  exact (spec_C2 [(sampleBeat.id, sampleBeat)] "x" 5 6
    (wfStore_singleton sampleBeat)).2.2 sampleBeat rfl rfl

/-- C3 witness: updating the sample record with a price-only body. -/
theorem spec_C3_witness :
    updateOp [(sampleBeat.id, sampleBeat)] "x" { price := some 7 } 5 =
      (some { mergePatch sampleBeat { price := some 7 } with updatedAt := some 5 },
       storeInsert [(sampleBeat.id, sampleBeat)] "x"
         { mergePatch sampleBeat { price := some 7 } with updatedAt := some 5 }) ∧
    ({ mergePatch sampleBeat { price := some 7 } with
        updatedAt := some 5 } : Beat).title = sampleBeat.title ∧
    ({ mergePatch sampleBeat { price := some 7 } with
        updatedAt := some 5 } : Beat).artist = sampleBeat.artist ∧
    ({ mergePatch sampleBeat { price := some 7 } with
        updatedAt := some 5 } : Beat).url = sampleBeat.url ∧
    ({ mergePatch sampleBeat { price := some 7 } with
        updatedAt := some 5 } : Beat).price = 7 ∧
    ({ mergePatch sampleBeat { price := some 7 } with
        updatedAt := some 5 } : Beat).updatedAt = some 5 := by
  have h := (spec_C3 [(sampleBeat.id, sampleBeat)] "x"
    { price := some 7 } 5 (wfStore_singleton sampleBeat)).2 sampleBeat rfl
  exact ⟨h.1, rfl, rfl, rfl, rfl, rfl⟩

/-- C5 witness: a freshly created record is unstamped and its trace contains
no mutation. -/
theorem spec_C5_witness :
    storeGet (run initState [Op.create sampleIn 1]).store (genId 0) =
      some { id := genId 0, title := "Night", artist := "Wave", price := 9,
             url := "u1", createdAt := 1, updatedAt := none, sold := false,
             featured := false } ∧
    traceMutates initState (genId 0) [Op.create sampleIn 1] = false ∧
    Beat.updatedAt { id := genId 0, title := "Night", artist := "Wave",
                     price := 9, url := "u1", createdAt := 1, updatedAt := none,
                     sold := false, featured := false } = none := by
  refine ⟨by decide, by decide, ?_⟩
  exact (spec_C5.2.2.2.2 [Op.create sampleIn 1] (genId 0)
    { id := genId 0, title := "Night", artist := "Wave", price := 9,
      url := "u1", createdAt := 1, updatedAt := none, sold := false,
      featured := false }
    (by
      intro o ho
      rw [List.mem_singleton] at ho
      subst ho
      trivial)
    (by decide)).mpr (by decide)

/-- C6 witness: deleting the concrete sample record. -/
theorem spec_C6_witness :
    (deleteOp [(sampleBeat.id, sampleBeat)] "x").1 = some sampleBeat ∧
    getByIdOp (deleteOp [(sampleBeat.id, sampleBeat)] "x").2 "x" = none ∧
    (deleteOp (deleteOp [(sampleBeat.id, sampleBeat)] "x").2 "x").1 = none := by
  exact (spec_C6 [(sampleBeat.id, sampleBeat)] "x").2 sampleBeat rfl

/-- C7 witness: `"prod"` matches the stored artist `"ProdByX"`
case-insensitively, and a query longer than every stored title yields the
empty sequence. -/
theorem spec_C7_witness :
    ({ sampleBeat with artist := "ProdByX" } : Beat) ∈
      searchByArtistOp
        [(sampleBeat.id, { sampleBeat with artist := "ProdByX" })] "prod" ∧
    searchByTitleOp
      [(sampleBeat.id, { sampleBeat with artist := "ProdByX" })] "zzzzzzzz" =
      [] := by
  constructor
  · exact ((spec_C7 [(sampleBeat.id, { sampleBeat with artist := "ProdByX" })]
      "prod").1 _).mpr
      ⟨by decide, ⟨[], ['b', 'y', 'x'], by decide⟩⟩
  · apply (spec_C7 [(sampleBeat.id, { sampleBeat with artist := "ProdByX" })]
      "zzzzzzzz").2.2.2.2.2
    intro b hb hci
    have hb2 : b = { sampleBeat with artist := "ProdByX" } := by
      have : b ∈ [({ sampleBeat with artist := "ProdByX" } : Beat)] := hb
      rw [List.mem_singleton] at this
      exact this
    subst hb2
    exact absurd (ciSub_length_le hci) (by decide)

/-- C8 witness: featuring the already-featured sample record twice. -/
theorem spec_C8_witness :
    featureOp [(sampleFeatured.id, sampleFeatured)] "x" 5 =
      (some { sampleFeatured with featured := true, updatedAt := some 5 },
       storeInsert [(sampleFeatured.id, sampleFeatured)] "x"
         { sampleFeatured with featured := true, updatedAt := some 5 }) ∧
    ({ sampleFeatured with featured := true, updatedAt := some 5 } : Beat) =
      { sampleFeatured with updatedAt := some 5 } ∧
    featureOp (featureOp [(sampleFeatured.id, sampleFeatured)] "x" 5).2 "x" 6 =
      (some { sampleFeatured with featured := true, updatedAt := some 6 },
       storeInsert (featureOp [(sampleFeatured.id, sampleFeatured)] "x" 5).2 "x"
         { sampleFeatured with featured := true, updatedAt := some 6 }) := by
  have h := (spec_C8 [(sampleFeatured.id, sampleFeatured)] "x"
    5 6 (wfStore_singleton sampleFeatured)).2 sampleFeatured rfl
  exact ⟨h.1, h.2.1 rfl, h.2.2⟩

/-- C9 witness: a forged-id update on a well-formed singleton store. -/
theorem spec_C9_witness :
    (storeGet (updateOp [(sampleBeat.id, sampleBeat)] "x"
        { id := some "zz" } 5).2 "zz").isSome =
      (storeGet [(sampleBeat.id, sampleBeat)] "zz").isSome ∧
    storeGet (updateOp [(sampleBeat.id, sampleBeat)] "x"
        { id := some "zz" } 5).2 "x" =
      some { mergePatch sampleBeat { id := some "zz" } with updatedAt := some 5 } ∧
    ({ mergePatch sampleBeat { id := some "zz" } with
        updatedAt := some 5 } : Beat).id = "zz" ∧
    storeGet (updateOp [(sampleBeat.id, sampleBeat)] "x"
        { id := some "zz" } 5).2 "zz" = none := by
  have h := spec_C9 [(sampleBeat.id, sampleBeat)] "x"
    { id := some "zz" } 5 rfl rfl
  exact ⟨h.1 "zz", h.2.1, (h.2.2 "zz" rfl).1, (h.2.2 "zz" rfl).2 (by decide) rfl⟩

/-- C10 witness: error outcomes on the empty store and on a sold record
leave the store untouched. -/
theorem spec_C10_witness :
    (updateOp [] "y" ({} : BeatPatch) 0).2 = [] ∧
    (deleteOp [] "y").2 = [] ∧
    (buyOp [] "y" 0).2 = [] ∧
    (featureOp [] "y" 0).2 = [] ∧
    (buyOp [(sampleSold.id, sampleSold)] "x" 7).2 =
      [(sampleSold.id, sampleSold)] := by
  have h := (spec_C10 [] "y" ({} : BeatPatch) 0 initState).1 rfl
  exact ⟨h.1, h.2.1, h.2.2.1, h.2.2.2,
    (spec_C10 [(sampleSold.id, sampleSold)] "x" ({} : BeatPatch) 7
      initState).2.1 sampleSold rfl rfl⟩
